import Mathlib

/-!
Verification of the threshold multisignature core
(`cosmwasm/enclaves/shared/cosmos-types/src/multisig.rs`): the canonical
amino encoder, the address deriver, the protobuf signature-blob decoder,
and the threshold verifier `MultisigThresholdPubKey::verify_bytes`.

Bytes are modelled as `Nat` (values taken mod 256 where the wire format
reads them); byte strings are `List Nat`.
-/

/-- Error taxonomy of the core (from `enclave_crypto::CryptoError`, restricted
to the two kinds this module produces). -/
inductive CryptoError where
  | ParsingError : CryptoError
  | VerificationError : CryptoError
deriving DecidableEq, Repr

/-- Modelled from the spec: the signing-mode enumeration is an opaque external
parameter, forwarded verbatim to each signer and never interpreted by this
core. Constructors follow `cosmos_proto::tx::signing::SignMode`. -/
inductive SignMode where
  | SIGN_MODE_UNSPECIFIED : SignMode
  | SIGN_MODE_DIRECT : SignMode
  | SIGN_MODE_TEXTUAL : SignMode
  | SIGN_MODE_LEGACY_AMINO_JSON : SignMode
deriving DecidableEq, Repr

/-- Modelled from the spec: `CosmosPubKey` (the constituent public keys) is an
external collaborator, opaque to this core beyond two capabilities: produce
canonical bytes and verify a signature against a message under a signing
mode. -/
structure CosmosPubKey where
  verify_bytes : List Nat → List Nat → SignMode → Bool
  amino_bytes : List Nat

/-- The threshold multisignature public key: a threshold and an ordered list
of constituent public keys (source struct `MultisigThresholdPubKey`). -/
structure MultisigThresholdPubKey where
  threshold : Nat
  public_keys : List CosmosPubKey

/-- The fixed four-byte amino type prefix for threshold keys (source constant
with value `[0x22, 0xc1, 0xf7, 0xe2]`). -/
def MULTISIG_THRESHOLD_PREFIX_BYTES : List Nat := [0x22, 0xc1, 0xf7, 0xe2]

/-- The one-byte protobuf tag of the threshold field (source constant 0x08). -/
def THRESHOLD_PREFIX_BYTE : Nat := 0x08

/-- The one-byte protobuf tag of each pubkey field (source constant 0x12). -/
def PUBKEY_PREFIX_BYTE : Nat := 0x12

/-- Modelled from the spec: the standard unsigned base-128 little-endian
continuation varint encoding (`prost::encoding::encode_varint`, an external
crate; the spec fixes the encoding as standard LEB128). -/
def encode_varint (n : Nat) : List Nat :=
  if n < 128 then [n]
  else (n % 128 + 128) :: encode_varint (n / 128)
termination_by n
decreasing_by exact Nat.div_lt_self (by omega) (by omega)

/-- The canonical amino encoding of a threshold key, following the source
loop of `amino_bytes`: start from the type prefix, the threshold tag and the
varint of the threshold, then append, for each constituent key in order, the
pubkey tag, the varint length delimiter of its canonical bytes and those
bytes. In the source `prost::encode_length_delimiter` into a growable vector
cannot fail, so the error branch returning an empty vector is unreachable and
has no counterpart here. -/
def MultisigThresholdPubKey.amino_bytes (key : MultisigThresholdPubKey) : List Nat :=
  key.public_keys.foldl
    (fun encoded pubkey =>
      encoded ++ PUBKEY_PREFIX_BYTE ::
        (encode_varint pubkey.amino_bytes.length ++ pubkey.amino_bytes))
    (MULTISIG_THRESHOLD_PREFIX_BYTES ++ THRESHOLD_PREFIX_BYTE :: encode_varint key.threshold)

/-- The encoding formula as the specification states it: the literal byte
constants, the varint of the threshold, then the concatenation over the keys
in order of tag, varint length and canonical bytes. -/
def amino_bytes_formula (key : MultisigThresholdPubKey) : List Nat :=
  [0x22, 0xc1, 0xf7, 0xe2] ++ [0x08] ++ encode_varint key.threshold ++
    (key.public_keys.map
      (fun pk => 0x12 :: (encode_varint pk.amino_bytes.length ++ pk.amino_bytes))).flatten

/-- The derived account address: the first 20 bytes of the digest of the
canonical amino encoding (source `get_address`). Modelled from the spec: the
digest function `sha2::Sha256` is an external cryptographic collaborator,
taken here as an abstract hash parameter. -/
def MultisigThresholdPubKey.get_address (hash : List Nat → List Nat)
    (key : MultisigThresholdPubKey) : List Nat :=
  (hash key.amino_bytes).take 20

/-- Modelled from the spec: one step of the protobuf varint reader used by
`MultiSignature::parse_from_bytes` (external generated code). Reads base-128
little-endian groups, at most 10 bytes, failing on end of input mid-varint or
on an 11th continuation byte; the value is truncated to 64 bits as the
external reader does. -/
def read_raw_varint_aux : Nat → Nat → Nat → List Nat → Option (Nat × List Nat)
  | 0, _, _, _ => none
  | _ + 1, _, _, [] => none
  | fuel + 1, acc, shift, b :: rest =>
    let b := b % 256
    if b < 128 then some ((acc + b * 2 ^ shift) % 2 ^ 64, rest)
    else read_raw_varint_aux fuel (acc + (b - 128) * 2 ^ shift) (shift + 7) rest

/-- Modelled from the spec: the protobuf varint reader, at most 10 bytes. -/
def read_raw_varint (bs : List Nat) : Option (Nat × List Nat) :=
  read_raw_varint_aux 10 0 0 bs

/-- Modelled from the spec: the field loop of protobuf parsing for the
`MultiSignature` message, whose only declared field is field number 1, a
repeated length-delimited byte string (the signatures). Each iteration reads
a varint tag; field number 0 is rejected; field 1 must carry wire type 2 and
is followed by a varint length and exactly that many payload bytes, checked
against the remaining buffer; unknown fields are skipped according to their
wire type (varint, 64-bit, length-delimited, 32-bit); group wire types are
rejected. The fuel argument bounds the recursion; every iteration consumes
at least one byte, so fuel equal to the buffer length suffices. -/
def parse_multi_signature_aux : Nat → List Nat → List (List Nat) → Option (List (List Nat))
  | _, [], acc => some acc.reverse
  | 0, _ :: _, _ => none
  | fuel + 1, bs, acc =>
    match read_raw_varint bs with
    | none => none
    | some (tagv, rest) =>
      let tag := tagv % 2 ^ 32
      let field_number := tag / 8
      let wire_type := tag % 8
      if field_number = 0 then none
      else if field_number = 1 then
        if wire_type = 2 then
          match read_raw_varint rest with
          | none => none
          | some (lenv, rest2) =>
            let len := lenv % 2 ^ 32
            if len ≤ rest2.length then
              parse_multi_signature_aux fuel (rest2.drop len) (rest2.take len :: acc)
            else none
        else none
      else
        if wire_type = 0 then
          match read_raw_varint rest with
          | none => none
          | some (_, rest2) => parse_multi_signature_aux fuel rest2 acc
        else if wire_type = 1 then
          if 8 ≤ rest.length then parse_multi_signature_aux fuel (rest.drop 8) acc else none
        else if wire_type = 2 then
          match read_raw_varint rest with
          | none => none
          | some (lenv, rest2) =>
            let len := lenv % 2 ^ 32
            if len ≤ rest2.length then parse_multi_signature_aux fuel (rest2.drop len) acc
            else none
        else if wire_type = 5 then
          if 4 ≤ rest.length then parse_multi_signature_aux fuel (rest.drop 4) acc else none
        else none

/-- Modelled from the spec: `MultiSignature::parse_from_bytes` followed by
taking the signatures field, returning the ordered list of decoded signature
byte strings or a parse failure. -/
def parse_multi_signature (raw_blob : List Nat) : Option (List (List Nat)) :=
  parse_multi_signature_aux (raw_blob.length + 1) raw_blob []

/-- The signature-blob decoder (source `decode_multisig_signature`): protobuf
parse failure is mapped to `ParsingError`; on success the signature list is
returned as is, with no emptiness check. -/
def decode_multisig_signature (raw_blob : List Nat) : Except CryptoError (List (List Nat)) :=
  match parse_multi_signature raw_blob with
  | none => .error .ParsingError
  | some ms => .ok ms

/-- The signer scan of the verifier loop: the position of the first candidate
in the pool whose verify capability accepts, mirroring the enumerate-and-break
loop of the source. -/
def find_signer_pos (p : CosmosPubKey → Bool) : List CosmosPubKey → Option Nat
  | [] => none
  | q :: qs => if p q then some 0 else (find_signer_pos p qs).map (· + 1)

/-- The signature loop of `verify_bytes`: empty signatures are skipped;
otherwise the first accepting candidate is removed from the pool and the
verified counter incremented; an unattributable signature aborts with a
verification error. Returns the final verified counter. -/
def verify_loop (bytes : List Nat) (sign_mode : SignMode) :
    List (List Nat) → List CosmosPubKey → Nat → Except CryptoError Nat
  | [], _, verified_counter => .ok verified_counter
  | current_sig :: rest, signers, verified_counter =>
    if current_sig.isEmpty then
      verify_loop bytes sign_mode rest signers verified_counter
    else
      match find_signer_pos (fun q => q.verify_bytes bytes current_sig sign_mode) signers with
      | some i => verify_loop bytes sign_mode rest (signers.eraseIdx i) (verified_counter + 1)
      | none => .error .VerificationError

/-- The threshold verifier (source `MultisigThresholdPubKey::verify_bytes`):
decode the blob, reject when the raw decoded count is below the threshold,
run the attribution loop over the full candidate pool, and succeed exactly
when the final verified counter reaches the threshold. -/
def MultisigThresholdPubKey.verify_bytes (key : MultisigThresholdPubKey)
    (bytes sig : List Nat) (sign_mode : SignMode) : Except CryptoError Unit :=
  match decode_multisig_signature sig with
  | .error e => .error e
  | .ok signatures =>
    if signatures.length < key.threshold then .error .VerificationError
    else
      match verify_loop bytes sign_mode signatures key.public_keys 0 with
      | .error e => .error e
      | .ok verified_counter =>
        if verified_counter < key.threshold then .error .VerificationError
        else .ok ()

/-! Helper lemmas about the signer scan and the verification loop. -/

/-- The signer scan finds nobody exactly when no candidate in the pool
accepts the signature. -/
theorem find_signer_pos_eq_none_iff (p : CosmosPubKey → Bool) (l : List CosmosPubKey) :
    find_signer_pos p l = none ↔ l.filter p = [] := by
  induction l with
  | nil => simp [find_signer_pos]
  | cons q qs ih =>
    cases h : p q with
    | true => simp [find_signer_pos, h]
    | false => simp [find_signer_pos, h, ih]

/-- A found signer position is a valid index into the pool. -/
theorem find_signer_pos_lt_length (p : CosmosPubKey → Bool) (l : List CosmosPubKey)
    (i : Nat) (h : find_signer_pos p l = some i) : i < l.length := by
  induction l generalizing i with
  | nil => simp [find_signer_pos] at h
  | cons x xs ih =>
    cases hx : p x with
    | true =>
      rw [find_signer_pos, hx] at h
      simp at h
      subst h
      simp
    | false =>
      rw [find_signer_pos, hx] at h
      simp at h
      obtain ⟨j, hj, rfl⟩ := h
      have := ih j hj
      simp
      omega

/-- When exactly one candidate in the pool accepts, the pool splits around
that candidate: everything before and after it rejects, the signer scan
returns its position, and erasing that position keeps exactly the others. -/
theorem filter_singleton_decomp (p : CosmosPubKey → Bool) (l : List CosmosPubKey)
    (q : CosmosPubKey) (h : l.filter p = [q]) :
    ∃ l1 l2, l = l1 ++ q :: l2 ∧ l1.filter p = [] ∧ l2.filter p = [] ∧
      find_signer_pos p l = some l1.length ∧ l.eraseIdx l1.length = l1 ++ l2 := by
  induction l generalizing q with
  | nil => simp at h
  | cons x xs ih =>
    cases hx : p x with
    | true =>
      rw [List.filter_cons, if_pos hx] at h
      simp only [List.cons.injEq] at h
      obtain ⟨rfl, hxs⟩ := h
      refine ⟨[], xs, by simp, rfl, hxs, ?_, by simp⟩
      rw [find_signer_pos, hx]
      rfl
    | false =>
      rw [List.filter_cons] at h
      simp only [hx, Bool.false_eq_true, if_false] at h
      obtain ⟨l1, l2, hdec, h1, h2, hfind, herase⟩ := ih q h
      refine ⟨x :: l1, l2, by rw [hdec]; rfl, ?_, h2, ?_, ?_⟩
      · rw [List.filter_cons]
        simp [hx, h1]
      · rw [find_signer_pos, hx]
        simp [hfind]
      · simp only [List.length_cons, List.eraseIdx_cons_succ, herase]
        rfl

/-- One-step unfolding of the verification loop on a nonempty signature
list; holds by definitional reduction. -/
theorem verify_loop_cons (bytes : List Nat) (mode : SignMode) (s : List Nat)
    (rest : List (List Nat)) (pool : List CosmosPubKey) (c : Nat) :
    verify_loop bytes mode (s :: rest) pool c =
      if s.isEmpty then verify_loop bytes mode rest pool c
      else
        match find_signer_pos (fun q => q.verify_bytes bytes s mode) pool with
        | some i => verify_loop bytes mode rest (pool.eraseIdx i) (c + 1)
        | none => .error .VerificationError := rfl

/-- The verification loop ignores empty signatures: running it on a list is
the same as running it on the list with all empty entries dropped. -/
theorem verify_loop_filter (bytes : List Nat) (mode : SignMode) (sigs : List (List Nat))
    (pool : List CosmosPubKey) (c : Nat) :
    verify_loop bytes mode sigs pool c =
      verify_loop bytes mode (sigs.filter fun s => !s.isEmpty) pool c := by
  induction sigs generalizing pool c with
  | nil => simp
  | cons s rest ih =>
    cases hs : s.isEmpty with
    | true => simp [verify_loop_cons, List.filter_cons, hs, ih]
    | false =>
      rw [List.filter_cons]
      simp only [hs, Bool.not_false, if_pos]
      rw [verify_loop_cons, verify_loop_cons]
      simp only [hs, Bool.false_eq_true, if_false]
      cases hf : find_signer_pos (fun q => q.verify_bytes bytes s mode) pool with
      | some i => simp [ih]
      | none => rfl

/-- A successful run of the verification loop can add at most one count per
candidate in the pool. -/
theorem verify_loop_ok_le (bytes : List Nat) (mode : SignMode) (sigs : List (List Nat))
    (pool : List CosmosPubKey) (c r : Nat)
    (h : verify_loop bytes mode sigs pool c = .ok r) : r ≤ c + pool.length := by
  induction sigs generalizing pool c r with
  | nil =>
    simp [verify_loop] at h
    omega
  | cons s rest ih =>
    rw [verify_loop_cons] at h
    cases hs : s.isEmpty with
    | true =>
      rw [hs, if_pos rfl] at h
      exact ih pool c r h
    | false =>
      rw [hs] at h
      simp only [Bool.false_eq_true, if_false] at h
      cases hf : find_signer_pos (fun q => q.verify_bytes bytes s mode) pool with
      | some i =>
        rw [hf] at h
        have hlt := find_signer_pos_lt_length _ _ _ hf
        have := ih (pool.eraseIdx i) (c + 1) r h
        rw [List.length_eraseIdx_of_lt hlt] at this
        omega
      | none =>
        rw [hf] at h
        simp at h

/-- Transfer a pointwise relation along a Forall₂, allowed to use membership
of the right element in the right list. -/
theorem forall2_congr_mem {α β : Type _} {R S : α → β → Prop}
    {l1 : List α} {l2 : List β} (h : List.Forall₂ R l1 l2)
    (himp : ∀ a b, b ∈ l2 → R a b → S a b) : List.Forall₂ S l1 l2 := by
  induction h with
  | nil => exact List.Forall₂.nil
  | @cons a b la lb hab htail ih =>
    refine List.Forall₂.cons (himp a b (List.mem_cons_self b lb) hab) ?_
    exact ih fun a' b' hb' hr => himp a' b' (List.mem_cons_of_mem b hb') hr

/-- The key correctness lemma of the verification loop: when every non-empty
signature in the list is accepted by exactly one candidate in the pool, and
those unique accepting candidates are pairwise distinct, the loop succeeds
and counts exactly one verification per non-empty signature. -/
theorem verify_loop_ok_of_unique (bytes : List Nat) (mode : SignMode)
    (sigs : List (List Nat)) (ps pool : List CosmosPubKey) (c : Nat)
    (hF : List.Forall₂
      (fun s p => pool.filter (fun q => q.verify_bytes bytes s mode) = [p])
      (sigs.filter fun s => !s.isEmpty) ps)
    (hnd : ps.Nodup) :
    verify_loop bytes mode sigs pool c = .ok (c + ps.length) := by
  induction sigs generalizing ps pool c with
  | nil =>
    simp only [List.filter_nil, List.forall₂_nil_left_iff] at hF
    subst hF
    simp [verify_loop]
  | cons s rest ih =>
    cases hs : s.isEmpty with
    | true =>
      rw [List.filter_cons] at hF
      simp only [hs, Bool.not_true, Bool.false_eq_true, if_false] at hF
      rw [verify_loop_cons, hs, if_pos rfl]
      exact ih ps pool c hF hnd
    | false =>
      rw [List.filter_cons] at hF
      simp only [hs, Bool.not_false, if_pos] at hF
      rcases ps with _ | ⟨p, ps'⟩
      · exact absurd hF (by simp)
      rw [List.forall₂_cons] at hF
      obtain ⟨hhead, htail⟩ := hF
      obtain ⟨hp_notmem, hnd'⟩ := List.nodup_cons.mp hnd
      obtain ⟨l1, l2, hpool, hf1, hf2, hfind, herase⟩ :=
        filter_singleton_decomp _ pool p hhead
      rw [verify_loop_cons, hs]
      simp only [Bool.false_eq_true, if_false, hfind, herase]
      have htail' : List.Forall₂
          (fun s' p' => (l1 ++ l2).filter (fun q => q.verify_bytes bytes s' mode) = [p'])
          (rest.filter fun s => !s.isEmpty) ps' := by
        refine forall2_congr_mem htail ?_
        intro s' p' hp'mem hR
        have hvp : p.verify_bytes bytes s' mode = false := by
          cases hvp' : p.verify_bytes bytes s' mode with
          | false => rfl
          | true =>
            have hpmem : p ∈ pool := by rw [hpool]; simp
            have hmem : p ∈ pool.filter (fun q => q.verify_bytes bytes s' mode) :=
              List.mem_filter.mpr ⟨hpmem, hvp'⟩
            rw [hR] at hmem
            have hpp : p = p' := by simpa using hmem
            exact absurd (hpp ▸ hp'mem) hp_notmem
        rw [hpool, List.filter_append, List.filter_cons] at hR
        simp only [hvp, Bool.false_eq_true, if_false] at hR
        rw [List.filter_append]
        exact hR
      have hrec := ih ps' (l1 ++ l2) (c + 1) htail' hnd'
      have harith : c + 1 + ps'.length = c + (p :: ps').length := by
        simp
        omega
      rw [harith] at hrec
      exact hrec

/-- Folding append of encoded fragments over a list equals the initial
segment followed by the flattened fragments; used to relate the source
encoder loop to the specification formula. -/
theorem foldl_append_flatten {α β : Type _} (f : α → List β) (l : List α) (init : List β) :
    l.foldl (fun acc x => acc ++ f x) init = init ++ (l.map f).flatten := by
  induction l generalizing init with
  | nil => simp
  | cons x xs ih => simp [ih, List.append_assoc]

/-- A concrete signer capability accepting exactly the signature byte string
[1]; used to instantiate witnesses. -/
def pkW1 : CosmosPubKey := ⟨fun _ s _ => decide (s = [1]), [101]⟩

/-- A concrete signer capability accepting exactly the signature byte string
[2]; used to instantiate witnesses. -/
def pkW2 : CosmosPubKey := ⟨fun _ s _ => decide (s = [2]), [102]⟩

/-- Claim C3: the canonical amino encoding of a threshold key is exactly the
four fixed type-prefix bytes 0x22 0xc1 0xf7 0xe2, the threshold tag 0x08, the
varint of the threshold, and then for each constituent key in order the
pubkey tag 0x12, the varint of the length of its canonical bytes, and those
bytes. -/
theorem claim_C3 (key : MultisigThresholdPubKey) :
    key.amino_bytes = amino_bytes_formula key := by
  unfold MultisigThresholdPubKey.amino_bytes amino_bytes_formula
  rw [foldl_append_flatten]
  simp [MULTISIG_THRESHOLD_PREFIX_BYTES, THRESHOLD_PREFIX_BYTE, PUBKEY_PREFIX_BYTE]

/-- Claim C6: a zero-length decoded signature is skipped by the verification
loop: it does not touch the counter, the candidate pool, or the outcome, and
running the loop is the same as running it with all empty entries dropped. -/
theorem claim_C6 :
    (∀ (bytes : List Nat) (mode : SignMode) (rest : List (List Nat))
        (pool : List CosmosPubKey) (c : Nat),
      verify_loop bytes mode ([] :: rest) pool c = verify_loop bytes mode rest pool c) ∧
    (∀ (bytes : List Nat) (mode : SignMode) (sigs : List (List Nat))
        (pool : List CosmosPubKey) (c : Nat),
      verify_loop bytes mode sigs pool c =
        verify_loop bytes mode (sigs.filter fun s => !s.isEmpty) pool c) := by
  refine ⟨fun bytes mode rest pool c => rfl, fun bytes mode sigs pool c => ?_⟩
  exact verify_loop_filter bytes mode sigs pool c

/-- Claim C5: when the blob decodes to a list whose raw length, counting
empty entries, is below the threshold, verification fails immediately with
VerificationError, for any key, message and signing mode — in particular for
arbitrary member verify capabilities, which are never consulted. -/
theorem claim_C5 (key : MultisigThresholdPubKey) (bytes blob : List Nat) (mode : SignMode)
    (sigs : List (List Nat)) (hdec : decode_multisig_signature blob = .ok sigs)
    (hlt : sigs.length < key.threshold) :
    key.verify_bytes bytes blob mode = .error .VerificationError := by
  unfold MultisigThresholdPubKey.verify_bytes
  rw [hdec]
  simp [hlt]

/-- Witness for C5 at a concrete input: a two-of-nothing key against the
blob [10, 0], which decodes to a single empty signature. -/
theorem claim_C5_witness :
    MultisigThresholdPubKey.verify_bytes ⟨2, []⟩ [] [10, 0] .SIGN_MODE_DIRECT
      = .error .VerificationError :=
  claim_C5 ⟨2, []⟩ [] [10, 0] .SIGN_MODE_DIRECT [[]] rfl (by decide)

/-- Claim C9: a key whose threshold exceeds its number of public keys can
never verify successfully: at most one count accrues per distinct signer, so
some error is returned for every message, blob and signing mode. -/
theorem claim_C9 (key : MultisigThresholdPubKey) (bytes blob : List Nat) (mode : SignMode)
    (h : key.public_keys.length < key.threshold) :
    ∃ e, key.verify_bytes bytes blob mode = .error e := by
  unfold MultisigThresholdPubKey.verify_bytes
  cases hdec : decode_multisig_signature blob with
  | error e => exact ⟨e, rfl⟩
  | ok sigs =>
    by_cases hlen : sigs.length < key.threshold
    · exact ⟨.VerificationError, by simp [hlen]⟩
    · cases hloop : verify_loop bytes mode sigs key.public_keys 0 with
      | error e => exact ⟨e, by simp [hlen, hloop]⟩
      | ok r =>
        have hr := verify_loop_ok_le bytes mode sigs key.public_keys 0 r hloop
        have hlt : r < key.threshold := by omega
        exact ⟨.VerificationError, by simp [hlen, hloop, hlt]⟩

/-- Witness for C9 at a concrete input: threshold 1 with zero public keys,
on a blob decoding to one empty signature. -/
theorem claim_C9_witness :
    ∃ e, MultisigThresholdPubKey.verify_bytes ⟨1, []⟩ [] [10, 0] .SIGN_MODE_DIRECT
      = .error e :=
  claim_C9 ⟨1, []⟩ [] [10, 0] .SIGN_MODE_DIRECT (by decide)

/-- Claim C7: the derived address is the first 20 bytes of the hash digest of
the canonical encoding, and is a pure function of that encoding: two keys
with identical canonical bytes get identical addresses. -/
theorem claim_C7 (hash : List Nat → List Nat) (k1 k2 : MultisigThresholdPubKey)
    (h : k1.amino_bytes = k2.amino_bytes) :
    k1.get_address hash = (hash k1.amino_bytes).take 20 ∧
    k1.get_address hash = k2.get_address hash := by
  refine ⟨rfl, ?_⟩
  unfold MultisigThresholdPubKey.get_address
  rw [h]

/-- Witness for C7 at a concrete key and a concrete hash function. -/
theorem claim_C7_witness :
    MultisigThresholdPubKey.get_address (fun l => l) ⟨1, [pkW1]⟩ =
      ((fun l : List Nat => l) (MultisigThresholdPubKey.amino_bytes ⟨1, [pkW1]⟩)).take 20 ∧
    MultisigThresholdPubKey.get_address (fun l => l) ⟨1, [pkW1]⟩ =
      MultisigThresholdPubKey.get_address (fun l => l) ⟨1, [pkW1]⟩ :=
  claim_C7 (fun l => l) ⟨1, [pkW1]⟩ ⟨1, [pkW1]⟩ rfl

/-- Claim C8: the decoder rejects the tag-without-length blob and the
over-claiming length blob with ParsingError, and decodes [10, 0] to exactly
one zero-length signature. -/
theorem claim_C8 :
    decode_multisig_signature [0, 0, 0, 0, 0, 0, 0, 0x12] = .error .ParsingError ∧
    decode_multisig_signature [0, 0, 0, 0, 0, 0, 0, 0x12, 10, 0, 0] = .error .ParsingError ∧
    decode_multisig_signature [10, 0] = .ok [[]] :=
  ⟨rfl, rfl, rfl⟩

/-- Counterexample to claim C4 as stated: on the empty blob, which encodes
zero fields, the decoder returns the empty signature list successfully
instead of a decode error. -/
theorem claim_C4_counterexample :
    decode_multisig_signature [] = .ok [] ∧
    ¬ (decode_multisig_signature [] = .error .ParsingError ∨
        decode_multisig_signature [] ≠ .ok ([] : List (List Nat))) := by
  refine ⟨rfl, ?_⟩
  intro h
  rcases h with h | h
  · exact Except.noConfusion h
  · exact h rfl

/-- Claim C4 as amended: for every input blob the decoder either fails with
ParsingError or returns the list of decoded signatures, which may be empty;
in particular the empty blob decodes to the empty list rather than an
error. -/
theorem claim_C4_amended :
    (∀ blob : List Nat,
      decode_multisig_signature blob = .error .ParsingError ∨
      ∃ sigs : List (List Nat), decode_multisig_signature blob = .ok sigs) ∧
    decode_multisig_signature [] = .ok [] := by
  refine ⟨?_, rfl⟩
  intro blob
  unfold decode_multisig_signature
  cases parse_multi_signature blob with
  | none => exact Or.inl rfl
  | some ms => exact Or.inr ⟨ms, rfl⟩

/-- Counterexample to claim C10 as stated: with threshold 0 and no public
keys, the blob [10, 1, 1] decodes successfully (to one non-empty signature),
yet verification fails because the signature is unattributable. -/
theorem claim_C10_counterexample :
    MultisigThresholdPubKey.verify_bytes ⟨0, []⟩ [] [10, 1, 1] .SIGN_MODE_DIRECT
      = .error .VerificationError := rfl

/-- Claim C10 as amended: with threshold 0, verification succeeds on any
blob that decodes to a list containing only empty signatures (including the
empty list), without consulting any signer. -/
theorem claim_C10_amended (key : MultisigThresholdPubKey) (bytes blob : List Nat)
    (mode : SignMode) (sigs : List (List Nat))
    (h0 : key.threshold = 0)
    (hdec : decode_multisig_signature blob = .ok sigs)
    (hemp : ∀ s ∈ sigs, s = []) :
    key.verify_bytes bytes blob mode = .ok () := by
  unfold MultisigThresholdPubKey.verify_bytes
  rw [hdec]
  have hfil : sigs.filter (fun s => !s.isEmpty) = [] := by
    rw [List.filter_eq_nil_iff]
    intro s hsmem
    simp [hemp s hsmem]
  have hloop : verify_loop bytes mode sigs key.public_keys 0 = .ok 0 := by
    rw [verify_loop_filter, hfil]
    rfl
  simp [h0, hloop]

/-- Witness for the amended C10 at a concrete input: threshold 0, blob
decoding to one empty signature. -/
theorem claim_C10_witness :
    MultisigThresholdPubKey.verify_bytes ⟨0, []⟩ [] [10, 0] .SIGN_MODE_DIRECT = .ok () :=
  claim_C10_amended ⟨0, []⟩ [] [10, 0] .SIGN_MODE_DIRECT [[]] rfl rfl (by decide)

/-- Claim C2: a matched signer is removed from the pool for the rest of the
call, and an unattributable non-empty signature fails the whole verification
immediately; in particular a blob carrying the same valid signature twice,
with exactly one matching signer in the key set, is rejected. -/
theorem claim_C2 (key : MultisigThresholdPubKey) (bytes blob s : List Nat) (mode : SignMode)
    (p : CosmosPubKey) (rest : List (List Nat)) (pool : List CosmosPubKey) (c : Nat)
    (hdec : decode_multisig_signature blob = .ok [s, s]) (hs : s ≠ [])
    (huniq : key.public_keys.filter (fun q => q.verify_bytes bytes s mode) = [p])
    (hfil : pool.filter (fun q => q.verify_bytes bytes s mode) = []) :
    key.verify_bytes bytes blob mode = .error .VerificationError ∧
    verify_loop bytes mode (s :: rest) pool c = .error .VerificationError := by
  have hsE : s.isEmpty = false := List.isEmpty_eq_false.mpr hs
  have hgen : ∀ (rest0 : List (List Nat)) (pool0 : List CosmosPubKey) (c0 : Nat),
      pool0.filter (fun q => q.verify_bytes bytes s mode) = [] →
      verify_loop bytes mode (s :: rest0) pool0 c0 = .error .VerificationError := by
    intro rest0 pool0 c0 hfil0
    rw [verify_loop_cons, hsE]
    simp only [Bool.false_eq_true, if_false]
    rw [(find_signer_pos_eq_none_iff _ _).mpr hfil0]
  refine ⟨?_, hgen rest pool c hfil⟩
  unfold MultisigThresholdPubKey.verify_bytes
  rw [hdec]
  by_cases hlen : 2 < key.threshold
  · simp [hlen]
  · obtain ⟨l1, l2, hpool, hf1, hf2, hfind, herase⟩ :=
      filter_singleton_decomp _ key.public_keys p huniq
    have hloop : verify_loop bytes mode [s, s] key.public_keys 0
        = .error .VerificationError := by
      rw [verify_loop_cons, hsE]
      simp only [Bool.false_eq_true, if_false, hfind, herase]
      exact hgen [] (l1 ++ l2) 1 (by rw [List.filter_append, hf1, hf2]; rfl)
    simp [hlen, hloop]

/-- Witness for C2 at a concrete input: a one-of-one key whose only signer
accepts [1], against a blob carrying the valid signature [1] twice. -/
theorem claim_C2_witness :
    MultisigThresholdPubKey.verify_bytes ⟨1, [pkW1]⟩ [] [10, 1, 1, 10, 1, 1]
        .SIGN_MODE_DIRECT = .error .VerificationError ∧
    verify_loop [] .SIGN_MODE_DIRECT [[1]] [] 0 = .error .VerificationError :=
  claim_C2 ⟨1, [pkW1]⟩ [] [10, 1, 1, 10, 1, 1] [1] .SIGN_MODE_DIRECT pkW1 [] [] 0
    rfl (by decide) rfl rfl

/-- Claim C1: with threshold k among at least k keys, a blob decoding to
exactly k non-empty signatures, each accepted by exactly one key of the set
and with pairwise distinct accepting keys, verifies successfully; a blob
whose non-empty signatures are k-1 such signatures (the rest empty or
absent, none unattributable) fails with VerificationError. -/
theorem claim_C1 (key : MultisigThresholdPubKey) (bytes : List Nat) (mode : SignMode)
    (k : Nat) (hk : key.threshold = k) (hk1 : 1 ≤ k) (hn : k ≤ key.public_keys.length)
    (blobA : List Nat) (sigsA : List (List Nat)) (psA : List CosmosPubKey)
    (hdecA : decode_multisig_signature blobA = .ok sigsA)
    (hFA : List.Forall₂
      (fun s p => key.public_keys.filter (fun q => q.verify_bytes bytes s mode) = [p])
      (sigsA.filter fun s => !s.isEmpty) psA)
    (hndA : psA.Nodup) (hlenA : psA.length = k)
    (blobB : List Nat) (sigsB : List (List Nat)) (psB : List CosmosPubKey)
    (hdecB : decode_multisig_signature blobB = .ok sigsB)
    (hFB : List.Forall₂
      (fun s p => key.public_keys.filter (fun q => q.verify_bytes bytes s mode) = [p])
      (sigsB.filter fun s => !s.isEmpty) psB)
    (hndB : psB.Nodup) (hlenB : psB.length = k - 1) :
    key.verify_bytes bytes blobA mode = .ok () ∧
    key.verify_bytes bytes blobB mode = .error .VerificationError := by
  constructor
  · unfold MultisigThresholdPubKey.verify_bytes
    rw [hdecA]
    have hlenfil : (sigsA.filter fun s => !s.isEmpty).length = psA.length := hFA.length_eq
    have hfle := List.length_filter_le (fun s => !s.isEmpty) sigsA
    have hge : ¬ sigsA.length < key.threshold := by omega
    have hloop := verify_loop_ok_of_unique bytes mode sigsA psA key.public_keys 0 hFA hndA
    simp [hge, hloop]
    omega
  · unfold MultisigThresholdPubKey.verify_bytes
    rw [hdecB]
    by_cases hlen : sigsB.length < key.threshold
    · simp [hlen]
    · have hloop := verify_loop_ok_of_unique bytes mode sigsB psB key.public_keys 0 hFB hndB
      simp [hlen, hloop]
      omega

/-- Witness for C1 at a concrete input: a two-of-two key over signers
accepting respectively [1] and [2]; the blob with both signatures verifies,
the blob with one signature and one abstention fails. -/
theorem claim_C1_witness :
    MultisigThresholdPubKey.verify_bytes ⟨2, [pkW1, pkW2]⟩ [] [10, 1, 1, 10, 1, 2]
        .SIGN_MODE_DIRECT = .ok () ∧
    MultisigThresholdPubKey.verify_bytes ⟨2, [pkW1, pkW2]⟩ [] [10, 1, 1, 10, 0]
        .SIGN_MODE_DIRECT = .error .VerificationError :=
  claim_C1 ⟨2, [pkW1, pkW2]⟩ [] .SIGN_MODE_DIRECT 2 rfl (by decide) (by decide)
    [10, 1, 1, 10, 1, 2] [[1], [2]] [pkW1, pkW2] rfl
    (List.Forall₂.cons rfl (List.Forall₂.cons rfl List.Forall₂.nil))
    (by
      refine List.Pairwise.cons ?_ (List.Pairwise.cons (by simp) List.Pairwise.nil)
      intro b hb
      rw [List.mem_singleton] at hb
      subst hb
      intro hEq
      exact absurd (congrArg CosmosPubKey.amino_bytes hEq) (by decide))
    rfl
    [10, 1, 1, 10, 0] [[1], []] [pkW1] rfl
    (List.Forall₂.cons rfl List.Forall₂.nil)
    (by simp) rfl
